import Mathlib

/-!
Verification of the yagrep pattern-search utility (src/main.rs) against its
natural-language specification.

Shallow embedding conventions:
* A filesystem path is its list of components (`Path := List String`).
  Rust's `Path::starts_with` is component-wise prefix, i.e. `List.isPrefixOf`
  on component lists.
* Directory-entry base names coming from the OS are byte strings that may or
  may not be valid UTF-8; an entry name is modelled as a `String` (standing
  for the abstract byte name) together with a `utf8 : Bool` flag telling
  whether `OsStr::to_str` succeeds on it.
* A file's content is modelled at the granularity the program consumes it:
  the list of its lines (`std::fs::read_to_string` followed by
  `str::lines()`), or `none` when the read fails.
* The regex matcher is the external black-box capability
  `re : String → Bool` (`Regex::is_match` on one line).
* The git ignore oracle is external: `Sys` gives the outcomes of the two
  subprocess invocations (`git rev-parse --show-toplevel` and
  `git check-ignore`); `git_root` and `is_git_ignore` embed the Rust
  functions of the same names on top of it.  A `ProcResult` is the
  `std::process::Output` as far as the program inspects it: exit status
  success and (for rev-parse) the trimmed stdout parsed as a path, `none`
  when the bytes are not valid UTF-8.  A `none` from `Sys` is a spawn
  failure (`Command::output()` returned `Err`).
* Output written to stdout is modelled structurally: a green file-path
  header line, or a `"<n>: <text>"` match line (`OutLine`).
* The walker additionally logs an event trace (`Event`) recording each
  oracle query, each push onto the ignore cache, each file handed to the
  file scanner and each directory recursed into; this instruments the
  observable actions the spec's properties quantify over.
* Rust panics (`unwrap` on a non-UTF-8 name) and the `?`-propagated
  `read_dir` / entry errors both abort `match_directory`; they are the two
  `WalkErr` outcomes, threaded as `RunState × Option WalkErr` so the state
  produced before the abort stays observable.
-/

namespace Yagrep

/-- A filesystem path as its list of components. -/
abbrev Path := List String

/-- Rust's `str::starts_with(pat)`, embedded at the character level: the
pattern's characters are a prefix of the subject's characters. -/
def strStartsWith (s pat : String) : Bool :=
  pat.data.isPrefixOf s.data

/-! ## CLI configuration (src/main.rs lines 6-58, 194-206) -/

/-- `const USAGE` of the source. -/
def USAGE : String := "Usage: yagrep [options] <pattern> <file>"

/-- `enum CliOptions` of the source. -/
inductive CliOptions where
  | IgnoreCase
  | IgnoreGitIgnore
  | IgnoreNoHiddenFiles
  | Empty
  deriving DecidableEq, Repr

/-- `struct CliApp`'s immutable configuration: `options`, `pattern`, `path`.
The two `RefCell` fields (`ignored_paths`, `writer`) are the mutable run
state and are modelled separately as `RunState`. -/
structure CliApp where
  options : List CliOptions
  pattern : String
  path : String
  deriving DecidableEq, Repr

/-- `CliApp::has_option` (source lines 55-57). -/
def CliApp.has_option (app : CliApp) (o : CliOptions) : Bool :=
  app.options.contains o

/-- `get_full_path` (source lines 194-206).  `none` models the `.expect`
panic on an empty path argument; otherwise a path starting with `/` is used
as is and anything else is joined onto the current directory. -/
def get_full_path (current_dir : String) (path : String) : Option String :=
  match path.toList with
  | [] => none
  | c :: _ => some (if c = '/' then path else current_dir ++ "/" ++ path)

/-- The per-character option decoding inside `CliApp::new`'s `flat_map`
closure (source lines 37-42). -/
def cliOptionOfChar (c : Char) : CliOptions :=
  match c with
  | 'i' => CliOptions.IgnoreCase
  | 'g' => CliOptions.IgnoreGitIgnore
  | 'H' => CliOptions.IgnoreNoHiddenFiles
  | _ => CliOptions.Empty

/-- Outcome of `CliApp::new`: `Ok(app)`, `Err(USAGE)`, or the panic hiding
inside `get_full_path`'s `.expect`. -/
inductive NewResult where
  | ok (app : CliApp)
  | err (msg : String)
  | panicEmptyPath
  deriving DecidableEq, Repr

/-- `CliApp::new` (source lines 25-53).  `args` is the full argv including
the program name.  The source checks `args.len() < 3`, then reads
`args[1]` as the pattern and `args[2]` as the path, and collects option
characters from every argument that starts with `-` (the program name and
the two positional arguments included). -/
def CliApp.new (current_dir : String) (args : List String) : NewResult :=
  match args with
  | a0 :: a1 :: a2 :: rest =>
    match get_full_path current_dir a2 with
    | none => NewResult.panicEmptyPath
    | some p =>
      NewResult.ok
        { options :=
            ((a0 :: a1 :: a2 :: rest).filter (fun a => strStartsWith a "-")).flatMap
              (fun a => a.toList.map cliOptionOfChar)
          pattern := a1
          path := p }
  | _ => NewResult.err USAGE

/-! ## The git ignore oracle (src/main.rs lines 60-91) -/

/-- What the program inspects of a finished `git` subprocess: whether the
exit status was success, and the trimmed stdout parsed as a path (`none`
when the output bytes are not valid UTF-8). -/
structure ProcResult where
  success : Bool
  stdout_path : Option Path
  deriving DecidableEq, Repr

/-- The external world: outcomes of the two `git` subprocess invocations.
`none` is a spawn failure (`Command::output()` returned `Err`). -/
structure Sys where
  revParse : Path → Option ProcResult
  checkIgnore : Path → Path → Option ProcResult

/-- `git_root` (source lines 74-91): spawn failure gives `None`; a
non-success exit gives `None`; success gives the parsed stdout, which is
itself `None` when not valid UTF-8 (the trailing `?`). -/
def git_root (sys : Sys) (path : Path) : Option Path :=
  match sys.revParse path with
  | none => none
  | some out => if out.success then out.stdout_path else none

/-- `is_git_ignore` (source lines 60-72): spawn failure gives `None`;
`output.status.success().then_some(Some(true))?` gives `Some(true)` on
success exit and `None` otherwise — the function never returns
`Some(false)`. -/
def is_git_ignore (sys : Sys) (git_dir_path : Path) (path : Path) : Option Bool :=
  match sys.checkIgnore git_dir_path path with
  | none => none
  | some out => if out.success then some true else none

/-! ## Output and run state -/

/-- One line written to stdout: the green file-path header, or a
`"<n>: <text>"` match line (`writeln!(writer, "{}: {}", index + 1, line)`). -/
inductive OutLine where
  | header (path : Path)
  | matchLine (n : Nat) (text : String)
  deriving DecidableEq, Repr

/-- Instrumentation events of one run: the two oracle queries, a push onto
`ignored_paths`, a file handed to `match_file`, a directory recursed into. -/
inductive Event where
  | queryRoot (p : Path)
  | queryIgnore (p : Path)
  | record (p : Path)
  | scanFile (p : Path)
  | enterDir (p : Path)
  deriving DecidableEq, Repr

/-- The path an event is about. -/
def Event.path : Event → Path
  | .queryRoot p => p
  | .queryIgnore p => p
  | .record p => p
  | .scanFile p => p
  | .enterDir p => p

/-- The mutable state of a run: the `ignored_paths` cache (`Vec::push`
appends at the end), the output sink, and the instrumentation trace. -/
structure RunState where
  ignored_paths : List Path
  output : List OutLine
  events : List Event
  deriving DecidableEq, Repr

/-- The state a run starts from: empty cache, empty sink, empty trace. -/
def initState : RunState := ⟨[], [], []⟩

/-- Append one instrumentation event. -/
def pushEvent (s : RunState) (ev : Event) : RunState :=
  { s with events := s.events ++ [ev] }

/-- `app.ignored_paths.borrow_mut().push(path)` (source line 180), plus its
trace event. -/
def recordIgnored (s : RunState) (p : Path) : RunState :=
  { s with
    ignored_paths := s.ignored_paths ++ [p]
    events := s.events ++ [Event.record p] }

/-- Append freshly written output lines to the sink. -/
def addOutput (s : RunState) (out : List OutLine) : RunState :=
  { s with output := s.output ++ out }

/-! ## The file scanner (src/main.rs lines 132-153) -/

/-- `match_file` (source lines 132-153).  `contents` is the
`read_to_string` outcome as the file's line list; a failed read returns
with nothing written.  Otherwise the lines are enumerated, filtered by the
matcher, the header is written when the peek finds at least one match, and
each match is written as `(index + 1): line`. -/
def match_file (re : String → Bool) (path : Path) (contents : Option (List String)) :
    List OutLine :=
  match contents with
  | none => []
  | some ls =>
    let ms := ls.enum.filter (fun il => re il.2)
    (if ms.isEmpty then [] else [OutLine.header path])
      ++ ms.map (fun il => OutLine.matchLine (il.1 + 1) il.2)

/-! ## The ignore cache check (src/main.rs lines 168-176) -/

/-- The cache containment check the walker runs before querying the
oracle — `app.ignored_paths.borrow().iter().any(|p| p.starts_with(&path))`
(source lines 169-174).  Rust's `p.starts_with(&path)` holds iff `path` is
a component-prefix of `p`, hence the `path.isPrefixOf p` below: the check
is true iff some cached path lies at or below the query. -/
def is_covered (ignored_paths : List Path) (path : Path) : Bool :=
  ignored_paths.any (fun p => path.isPrefixOf p)

/-- What the spec's words say `is_covered` must compute: the query `path`
is equal to or a descendant of some previously recorded ignored path
(modelled from the spec, for comparison with `is_covered` above). -/
def is_covered_spec (ignored_paths : List Path) (path : Path) : Bool :=
  ignored_paths.any (fun p => p.isPrefixOf path)

/-! ## The directory walker (src/main.rs lines 155-192) -/

/-- An abort of `match_directory`: the `?`-propagated `read_dir`/entry
error, or the panic of
`path.file_name().unwrap().to_str().unwrap()` on a non-UTF-8 name. -/
inductive WalkErr where
  | ioFailure (p : Path)
  | panicNonUtf8 (p : Path)
  deriving DecidableEq, Repr

/-- An entry of a directory listing.  `utf8` says whether the base name is
valid UTF-8 (whether `to_str()` succeeds).  The walker observes an entry's
kind only through `path.is_file()` and `path.is_dir()`, and both of these
Rust calls *traverse symlinks*; the constructors therefore record the kind
as the dispatch sees it:
* `file` — a regular file: whether `read_to_string` succeeds, and its lines;
* `symlinkFile` — a symlink whose target resolves to a regular file
  (`is_file()` is true for it too), carrying the read outcome of the
  *target*;
* `dir` — a directory, carrying its `read_dir` outcome (`none` =
  enumeration error);
* `symlinkDir` — a symlink whose target resolves to a directory
  (`is_dir()` is true for it too), carrying the `read_dir` outcome of
  the target (a symlink cycle simply makes the real traversal diverge;
  the model covers every finite portion a run can reach);
* `other` — an entry for which both tests are false: a special file, a
  dangling symlink, or a symlink to a special file. -/
inductive FsEntry where
  | file (name : String) (utf8 : Bool) (readable : Bool) (lines : List String)
  | symlinkFile (name : String) (utf8 : Bool) (readable : Bool) (lines : List String)
  | dir (name : String) (utf8 : Bool) (listing : Option (List FsEntry))
  | symlinkDir (name : String) (utf8 : Bool) (listing : Option (List FsEntry))
  | other (name : String) (utf8 : Bool)

/-- The entry's base name. -/
def FsEntry.name : FsEntry → String
  | .file n _ _ _ => n
  | .symlinkFile n _ _ _ => n
  | .dir n _ _ => n
  | .symlinkDir n _ _ => n
  | .other n _ => n

/-- Whether the entry's base name is valid UTF-8. -/
def FsEntry.utf8 : FsEntry → Bool
  | .file _ u _ _ => u
  | .symlinkFile _ u _ _ => u
  | .dir _ u _ => u
  | .symlinkDir _ u _ => u
  | .other _ u => u

/-- `path.is_file()` at the entry's path (source line 185): true for a
regular file and for a symlink whose target is a regular file, since
Rust's `Path::is_file` follows symlinks. -/
def FsEntry.is_file : FsEntry → Bool
  | .file _ _ _ _ => true
  | .symlinkFile _ _ _ _ => true
  | _ => false

/-- `path.is_dir()` at the entry's path (source line 187): true for a
directory and for a symlink whose target is a directory, since Rust's
`Path::is_dir` follows symlinks. -/
def FsEntry.is_dir : FsEntry → Bool
  | .dir _ _ _ => true
  | .symlinkDir _ _ _ => true
  | _ => false

/-- Result of the hidden-entry condition
`!app.has_option(IgnoreNoHiddenFiles) &&
path.file_name().unwrap().to_str().unwrap().starts_with(".")`
(source lines 163-167).  `&&` short-circuits, so with the `H` option set
the unwraps never run; without it a non-UTF-8 name panics before the name
is tested. -/
inductive HiddenRes where
  | skip
  | panicName
  | proceed
  deriving DecidableEq, Repr

/-- The hidden-entry condition of the walker (source lines 163-167). -/
def hiddenCheck (app : CliApp) (e : FsEntry) : HiddenRes :=
  if app.has_option CliOptions.IgnoreNoHiddenFiles then HiddenRes.proceed
  else if e.utf8 then
    (if strStartsWith e.name "." then HiddenRes.skip else HiddenRes.proceed)
  else HiddenRes.panicName

mutual

/-- One iteration of the `for entry in read_dir(directory)?` loop body of
`match_directory` (source lines 160-189): hidden check, then (unless the
`g` option is set) the cache check and the oracle queries, then dispatch
on the entry kind. -/
def walkEntry (re : String → Bool) (sys : Sys) (app : CliApp) (parent : Path)
    (e : FsEntry) (s : RunState) : RunState × Option WalkErr :=
  let path := parent ++ [e.name]
  match hiddenCheck app e with
  | HiddenRes.skip => (s, none)
  | HiddenRes.panicName => (s, some (WalkErr.panicNonUtf8 path))
  | HiddenRes.proceed =>
    if app.has_option CliOptions.IgnoreGitIgnore then
      dispatchEntry re sys app path e s
    else if is_covered s.ignored_paths path then (s, none)
    else
      let s1 := pushEvent s (Event.queryRoot path)
      match git_root sys path with
      | none => dispatchEntry re sys app path e s1
      | some root =>
        let s2 := pushEvent s1 (Event.queryIgnore path)
        if is_git_ignore sys root path = some true then
          (recordIgnored s2 path, none)
        else dispatchEntry re sys app path e s2
termination_by (sizeOf e, 1)

/-- The entry-kind dispatch at the end of the loop body (source lines
185-189), `if path.is_file() {..} else if path.is_dir() {..}`: a path for
which `is_file()` holds (a regular file, or a symlink to one — both calls
follow symlinks) goes to `match_file`; a path for which `is_dir()` holds
(a directory, or a symlink to one) is recursed into, its `read_dir`
failure aborting; an entry failing both tests (special file, dangling
symlink) falls through and is ignored.  The five arms spell out the two
`if` branches per `FsEntry.is_file` / `FsEntry.is_dir` value. -/
def dispatchEntry (re : String → Bool) (sys : Sys) (app : CliApp) (path : Path)
    (e : FsEntry) (s : RunState) : RunState × Option WalkErr :=
  match e with
  | FsEntry.file _ _ readable lines =>
    let s1 := pushEvent s (Event.scanFile path)
    (addOutput s1 (match_file re path (if readable then some lines else none)), none)
  | FsEntry.symlinkFile _ _ readable lines =>
    let s1 := pushEvent s (Event.scanFile path)
    (addOutput s1 (match_file re path (if readable then some lines else none)), none)
  | FsEntry.dir _ _ listing =>
    let s1 := pushEvent s (Event.enterDir path)
    match listing with
    | none => (s1, some (WalkErr.ioFailure path))
    | some es => walkList re sys app path es s1
  | FsEntry.symlinkDir _ _ listing =>
    let s1 := pushEvent s (Event.enterDir path)
    match listing with
    | none => (s1, some (WalkErr.ioFailure path))
    | some es => walkList re sys app path es s1
  | FsEntry.other _ _ => (s, none)
termination_by (sizeOf e, 0)

/-- The `for` loop of `match_directory` over a directory listing: the `?`
on each iteration propagates the first abort and processes nothing after
it. -/
def walkList (re : String → Bool) (sys : Sys) (app : CliApp) (d : Path)
    (es : List FsEntry) (s : RunState) : RunState × Option WalkErr :=
  match es with
  | [] => (s, none)
  | e :: rest =>
    match walkEntry re sys app d e s with
    | (s1, some err) => (s1, some err)
    | (s1, none) => walkList re sys app d rest s1
termination_by (sizeOf es, 2)

end

/-- `match_directory` (source lines 155-192) on a directory at `dirPath`
whose `read_dir` outcome is `listing`: an enumeration error is the
`?`-propagated abort, otherwise the loop runs over the entries. -/
def match_directory (re : String → Bool) (sys : Sys) (app : CliApp) (dirPath : Path)
    (listing : Option (List FsEntry)) (s : RunState) : RunState × Option WalkErr :=
  match listing with
  | none => (s, some (WalkErr.ioFailure dirPath))
  | some es => walkList re sys app dirPath es s

/-! ## Derived notions the properties quantify over -/

/-- `P` is a strict ancestor of `q` under path-prefix semantics: `q` is
nested strictly below `P`. -/
def strictUnder (P q : Path) : Bool :=
  P.isPrefixOf q && !(P == q)

/-- A trace never shows an event nested strictly under a path after that
path was recorded in the ignore cache. -/
def NoLeak (tr : List Event) : Prop :=
  ∀ t₁ P t₂, tr = t₁ ++ Event.record P :: t₂ →
    ∀ ev ∈ t₂, strictUnder P (Event.path ev) = false

/-- The 1-based line number carried by an output line, if it is a match
line. -/
def OutLine.lineNum : OutLine → Option Nat
  | .header _ => none
  | .matchLine n _ => some n

/-! ## Concrete fixtures used by witnesses -/

/-- A matcher matching nothing. -/
def reFalse : String → Bool := fun _ => false

/-- A matcher matching every line. -/
def reTrue : String → Bool := fun _ => true

/-- A system on which every `git` invocation fails to spawn. -/
def sysNone : Sys := ⟨fun _ => none, fun _ _ => none⟩

/-- A run with no options set: hidden-file skipping and ignore filtering
are both enabled. -/
def appDefault : CliApp := ⟨[], "p", "/"⟩

/-- A system declaring the directory `r/ig` ignored inside the repository
rooted at `r`, and failing to spawn on everything else. -/
def sysIg : Sys :=
  ⟨fun p => if p = ["r", "ig"] then some ⟨true, some ["r"]⟩ else none,
   fun _ q => if q = ["r", "ig"] then some ⟨true, none⟩ else none⟩

/-- A directory listing holding an ignored subdirectory followed by a
second entry. -/
def esIg : List FsEntry :=
  [FsEntry.dir "ig" true (some []), FsEntry.other "a" true]

/-! ## Trace-soundness motives for the walker

The three statements proved simultaneously (by induction on entry size)
about one loop iteration, one dispatch and one loop run: relative to a
state whose cached paths do not sit at or above the current directory,
the walker only appends events and cache entries scoped under the current
position, never emits an event strictly under an already-cached path, and
its trace never shows an event strictly under a path after that path's
`record`. -/

def EntrySpec (re : String → Bool) (sys : Sys) (app : CliApp) (parent : Path)
    (e : FsEntry) (s : RunState) : Prop :=
  (∀ Q ∈ s.ignored_paths, ¬ Q <+: parent) →
  ∃ new newc,
    (walkEntry re sys app parent e s).1.events = s.events ++ new ∧
    (walkEntry re sys app parent e s).1.ignored_paths = s.ignored_paths ++ newc ∧
    (∀ ev ∈ new, (parent ++ [e.name]) <+: Event.path ev) ∧
    (∀ Q ∈ newc, (parent ++ [e.name]) <+: Q) ∧
    (∀ P ∈ s.ignored_paths, ∀ ev ∈ new, strictUnder P (Event.path ev) = false) ∧
    (∀ P, Event.record P ∈ new → P ∈ (walkEntry re sys app parent e s).1.ignored_paths) ∧
    NoLeak new

def DispatchSpec (re : String → Bool) (sys : Sys) (app : CliApp) (path : Path)
    (e : FsEntry) (s : RunState) : Prop :=
  (∀ Q ∈ s.ignored_paths, ¬ Q <+: path) →
  ∃ new newc,
    (dispatchEntry re sys app path e s).1.events = s.events ++ new ∧
    (dispatchEntry re sys app path e s).1.ignored_paths = s.ignored_paths ++ newc ∧
    (∀ ev ∈ new, path <+: Event.path ev) ∧
    (∀ Q ∈ newc, path <+: Q ∧ path ≠ Q) ∧
    (∀ P ∈ s.ignored_paths, ∀ ev ∈ new, strictUnder P (Event.path ev) = false) ∧
    (∀ P, Event.record P ∈ new → P ∈ (dispatchEntry re sys app path e s).1.ignored_paths) ∧
    NoLeak new

def ListSpec (re : String → Bool) (sys : Sys) (app : CliApp) (d : Path)
    (es : List FsEntry) (s : RunState) : Prop :=
  (∀ Q ∈ s.ignored_paths, ¬ Q <+: d) →
  ∃ new newc,
    (walkList re sys app d es s).1.events = s.events ++ new ∧
    (walkList re sys app d es s).1.ignored_paths = s.ignored_paths ++ newc ∧
    (∀ ev ∈ new, d <+: Event.path ev ∧ d ≠ Event.path ev) ∧
    (∀ Q ∈ newc, d <+: Q ∧ d ≠ Q) ∧
    (∀ P ∈ s.ignored_paths, ∀ ev ∈ new, strictUnder P (Event.path ev) = false) ∧
    (∀ P, Event.record P ∈ new → P ∈ (walkList re sys app d es s).1.ignored_paths) ∧
    NoLeak new

/-! # Theorems

First, case-by-case unfolding equations for `walkEntry`, mirroring the
control flow of the loop body of `match_directory`. -/

theorem walkEntry_skip {re : String → Bool} {sys : Sys} {app : CliApp} {parent : Path}
    {e : FsEntry} {s : RunState} (h : hiddenCheck app e = HiddenRes.skip) :
    walkEntry re sys app parent e s = (s, none) := by
  rw [walkEntry, h]

theorem walkEntry_panic {re : String → Bool} {sys : Sys} {app : CliApp} {parent : Path}
    {e : FsEntry} {s : RunState} (h : hiddenCheck app e = HiddenRes.panicName) :
    walkEntry re sys app parent e s
      = (s, some (WalkErr.panicNonUtf8 (parent ++ [e.name]))) := by
  rw [walkEntry, h]

theorem walkEntry_noIgnoreFiltering {re : String → Bool} {sys : Sys} {app : CliApp}
    {parent : Path} {e : FsEntry} {s : RunState}
    (h : hiddenCheck app e = HiddenRes.proceed)
    (hg : app.has_option CliOptions.IgnoreGitIgnore = true) :
    walkEntry re sys app parent e s
      = dispatchEntry re sys app (parent ++ [e.name]) e s := by
  rw [walkEntry, h]; simp [hg]

theorem walkEntry_covered {re : String → Bool} {sys : Sys} {app : CliApp}
    {parent : Path} {e : FsEntry} {s : RunState}
    (h : hiddenCheck app e = HiddenRes.proceed)
    (hg : app.has_option CliOptions.IgnoreGitIgnore = false)
    (hcov : is_covered s.ignored_paths (parent ++ [e.name]) = true) :
    walkEntry re sys app parent e s = (s, none) := by
  rw [walkEntry, h]; simp [hg, hcov]

theorem walkEntry_root_none {re : String → Bool} {sys : Sys} {app : CliApp}
    {parent : Path} {e : FsEntry} {s : RunState}
    (h : hiddenCheck app e = HiddenRes.proceed)
    (hg : app.has_option CliOptions.IgnoreGitIgnore = false)
    (hcov : is_covered s.ignored_paths (parent ++ [e.name]) = false)
    (hroot : git_root sys (parent ++ [e.name]) = none) :
    walkEntry re sys app parent e s
      = dispatchEntry re sys app (parent ++ [e.name]) e
          (pushEvent s (Event.queryRoot (parent ++ [e.name]))) := by
  rw [walkEntry, h]; simp [hg, hcov, hroot]

theorem walkEntry_ignored {re : String → Bool} {sys : Sys} {app : CliApp}
    {parent : Path} {e : FsEntry} {s : RunState} {root : Path}
    (h : hiddenCheck app e = HiddenRes.proceed)
    (hg : app.has_option CliOptions.IgnoreGitIgnore = false)
    (hcov : is_covered s.ignored_paths (parent ++ [e.name]) = false)
    (hroot : git_root sys (parent ++ [e.name]) = some root)
    (hig : is_git_ignore sys root (parent ++ [e.name]) = some true) :
    walkEntry re sys app parent e s
      = (recordIgnored
          (pushEvent (pushEvent s (Event.queryRoot (parent ++ [e.name])))
            (Event.queryIgnore (parent ++ [e.name])))
          (parent ++ [e.name]), none) := by
  rw [walkEntry, h]; simp [hg, hcov, hroot, hig]

theorem walkEntry_not_ignored {re : String → Bool} {sys : Sys} {app : CliApp}
    {parent : Path} {e : FsEntry} {s : RunState} {root : Path}
    (h : hiddenCheck app e = HiddenRes.proceed)
    (hg : app.has_option CliOptions.IgnoreGitIgnore = false)
    (hcov : is_covered s.ignored_paths (parent ++ [e.name]) = false)
    (hroot : git_root sys (parent ++ [e.name]) = some root)
    (hig : ¬ is_git_ignore sys root (parent ++ [e.name]) = some true) :
    walkEntry re sys app parent e s
      = dispatchEntry re sys app (parent ++ [e.name]) e
          (pushEvent (pushEvent s (Event.queryRoot (parent ++ [e.name])))
            (Event.queryIgnore (parent ++ [e.name]))) := by
  rw [walkEntry, h]; simp [hg, hcov, hroot, hig]

/-! ## C1: the ignore-cache containment check -/

/-- C1.  The spec requires the cache check to succeed iff the query is
equal to or a descendant of a cached ignored path.  The code's check
(`p.starts_with(&path)` over cached paths `p`, embedded as `is_covered`)
tests the reverse containment: at cache `[/a]` and query `/a/b` — a
descendant of the recorded path — the code's check returns `false`
although `/a` is a path-prefix of `/a/b`, while at cache `[/a/b]` and
query `/a` it returns `true` although `/a` is not below `/a/b`.  The check
therefore disagrees with the claim in both directions. -/
theorem is_covered_reversed_code_bug :
    is_covered [["a"]] ["a", "b"] = false ∧ (["a"] : Path) <+: ["a", "b"] ∧
    is_covered_spec [["a"]] ["a", "b"] = true ∧
    is_covered [["a", "b"]] ["a"] = true ∧ ¬ (["a", "b"] : Path) <+: ["a"] ∧
    is_covered_spec [["a", "b"]] ["a"] = false := by
  refine ⟨rfl, ⟨["b"], rfl⟩, rfl, rfl, ?_, rfl⟩
  intro hpre
  exact absurd hpre.length_le (by decide)

/-! ## C4: positional arguments with options in front -/

/-- C4.  For `yagrep -i foo /tmp` — an option token before the two
positional arguments, the shape the usage string `USAGE` documents —
`CliApp::new` takes `args[1]` and `args[2]` blindly: the configuration
records `-i` as the search pattern and resolves `foo` against the current
directory as the target path, instead of pattern `foo` and path `/tmp`. -/
theorem cliapp_new_option_first_code_bug :
    CliApp.new "/cwd" ["yagrep", "-i", "foo", "/tmp"]
      = NewResult.ok
          { options := [CliOptions.Empty, CliOptions.IgnoreCase]
            pattern := "-i"
            path := "/cwd/foo" } ∧
    ("-i" : String) ≠ "foo" ∧ ("/cwd/foo" : String) ≠ "/tmp" := by
  refine ⟨?_, by decide, by decide⟩
  rfl

/-! ## C6: hidden entries are skipped entirely -/

/-- C6.  With hidden-file skipping enabled (no `H` option) and an entry
whose (valid UTF-8) base name starts with `.`, the walker's loop body
returns the state unchanged: the entry is not scanned, not recursed into,
no oracle is queried and no output is produced, so a hidden directory's
whole subtree contributes nothing. -/
theorem hidden_entry_skipped (re : String → Bool) (sys : Sys) (app : CliApp)
    (parent : Path) (e : FsEntry) (s : RunState)
    (hH : app.has_option CliOptions.IgnoreNoHiddenFiles = false)
    (hu : e.utf8 = true) (hname : strStartsWith e.name "." = true) :
    walkEntry re sys app parent e s = (s, none) :=
  walkEntry_skip (by rw [hiddenCheck, hH, hu, hname]; rfl)

/-- Witness for C6: a concrete hidden file under the default options. -/
theorem hidden_entry_skipped_witness :
    walkEntry reFalse sysNone appDefault []
      (FsEntry.file ".secret" true true ["x"]) initState = (initState, none) :=
  hidden_entry_skipped reFalse sysNone appDefault []
    (FsEntry.file ".secret" true true ["x"]) initState (by decide) rfl (by decide)

/-! ## C7: a file that cannot be read is silently skipped -/

/-- C7.  When `read_to_string` fails, `match_file` writes nothing, and the
walker's dispatch on such a file leaves the output sink and the ignore
cache unchanged, records no error, and lets the run continue (the `none`
abort component). -/
theorem file_read_error_silent :
    (∀ (re : String → Bool) (p : Path), match_file re p none = []) ∧
    (∀ (re : String → Bool) (sys : Sys) (app : CliApp) (path : Path)
      (nm : String) (u : Bool) (lines : List String) (s : RunState),
      dispatchEntry re sys app path (FsEntry.file nm u false lines) s
        = ({ s with events := s.events ++ [Event.scanFile path] }, none)) := by
  constructor
  · intro re p; rfl
  · intro re sys app path nm u lines s
    rw [dispatchEntry]
    simp [pushEvent, addOutput, match_file]

/-! ## C8: a directory that cannot be enumerated aborts the run -/

/-- C8.  A directory whose `read_dir` fails makes `match_directory` return
the propagated error, and once one loop iteration aborts, the loop
returns that abort at once: the entries after it are never processed.
(`main` then reports the error and the run stops: the source calls
`match_directory(..).unwrap()`.) -/
theorem dir_enumeration_error_fatal :
    (∀ (re : String → Bool) (sys : Sys) (app : CliApp) (p : Path) (s : RunState),
      match_directory re sys app p none s = (s, some (WalkErr.ioFailure p))) ∧
    (∀ (re : String → Bool) (sys : Sys) (app : CliApp) (d : Path) (e : FsEntry)
      (rest : List FsEntry) (s s1 : RunState) (err : WalkErr),
      walkEntry re sys app d e s = (s1, some err) →
      walkList re sys app d (e :: rest) s = (s1, some err)) := by
  constructor
  · intro re sys app p s; rfl
  · intro re sys app d e rest s s1 err h
    rw [walkList, h]

/-! ## C10: a non-UTF-8 entry name panics the run -/

/-- C10.  Concrete reachability of the fatal branch: with the default
options (hidden-file skipping enabled), walking a directory holding one
entry whose base name is not valid UTF-8 hits the
`to_str().unwrap()` panic in the hidden-name check and the whole run
aborts with it. -/
theorem non_utf8_name_panic_reachable :
    match_directory reFalse sysNone appDefault ["r"]
        (some [FsEntry.file "bad" false true ["x"]]) initState
      = (initState, some (WalkErr.panicNonUtf8 ["r", "bad"])) := by
  rw [match_directory, walkList, walkEntry_panic (by decide)]
  rfl

/-! ## C3: entries that are neither file nor directory

The claim as stated — symlinks are silently ignored and never followed —
is false of the code: the dispatch tests `path.is_file()` and
`path.is_dir()` both traverse symlinks, so a symlink to a regular file is
scanned and a symlink to a directory is recursed into.
`symlink_followed_counterexample` exhibits both at concrete inputs.  What
does hold is the amended statement: an entry for which `is_file()` and
`is_dir()` are both false — a special file, a dangling symlink, a symlink
to a special file — is never scanned and never recursed into. -/

/-- Counterexample to C3 as stated: under the default options (with every
`git` spawn failing), a symlink whose target is a regular file is handed
to the file scanner and its target's content is reported, and a symlink
whose target is a directory is recursed into, its subtree scanned — the
walker does follow symlinks. -/
theorem symlink_followed_counterexample :
    (walkEntry reTrue sysNone appDefault []
        (FsEntry.symlinkFile "s" true true ["x"]) initState
      = ({ ignored_paths := [],
           output := [OutLine.header ["s"], OutLine.matchLine 1 "x"],
           events := [Event.queryRoot ["s"], Event.scanFile ["s"]] }, none)) ∧
    (walkEntry reTrue sysNone appDefault []
        (FsEntry.symlinkDir "d" true (some [FsEntry.file "f" true true ["y"]])) initState
      = ({ ignored_paths := [],
           output := [OutLine.header ["d", "f"], OutLine.matchLine 1 "y"],
           events := [Event.queryRoot ["d"], Event.enterDir ["d"],
             Event.queryRoot ["d", "f"], Event.scanFile ["d", "f"]] }, none)) := by
  constructor <;>
    simp [walkEntry, walkList, dispatchEntry, hiddenCheck, appDefault, sysNone, reTrue,
      CliApp.has_option, FsEntry.utf8, FsEntry.name, strStartsWith, is_covered, git_root,
      is_git_ignore, pushEvent, addOutput, match_file, initState, List.enum]

/-- C3 amended.  A directory entry for which `path.is_file()` and
`path.is_dir()` are both false — a special file, a dangling symlink, a
symlink to a special file; but not a symlink with a live file or
directory target, which the two tests follow — falls through the
dispatch: either the run panics beforehand on a non-UTF-8 name, or the
loop body returns with the output sink unchanged and with no `scanFile`
and no `enterDir` event, so the entry is never handed to the file scanner
and never recursed into.  The ignore checks still run first, so oracle
queries and a cache record may occur for it. -/
theorem non_file_non_dir_entry_ignored (re : String → Bool) (sys : Sys) (app : CliApp)
    (parent : Path) (e : FsEntry) (s : RunState)
    (hf : e.is_file = false) (hd : e.is_dir = false) :
    walkEntry re sys app parent e s
        = (s, some (WalkErr.panicNonUtf8 (parent ++ [e.name]))) ∨
    ∃ new newc,
      walkEntry re sys app parent e s
          = ({ ignored_paths := s.ignored_paths ++ newc, output := s.output,
               events := s.events ++ new }, none) ∧
      ∀ ev ∈ new, ∀ q : Path, ev ≠ Event.scanFile q ∧ ev ≠ Event.enterDir q := by
  cases e with
  | file nm u readable lines => simp [FsEntry.is_file] at hf
  | symlinkFile nm u readable lines => simp [FsEntry.is_file] at hf
  | dir nm u listing => simp [FsEntry.is_dir] at hd
  | symlinkDir nm u listing => simp [FsEntry.is_dir] at hd
  | other nm u => ?_
  cases hh : hiddenCheck app (FsEntry.other nm u) with
  | panicName => exact Or.inl (walkEntry_panic hh)
  | skip =>
    refine Or.inr ⟨[], [], ?_, by simp⟩
    rw [walkEntry_skip hh]; simp
  | proceed =>
    by_cases hg : app.has_option CliOptions.IgnoreGitIgnore = true
    · refine Or.inr ⟨[], [], ?_, by simp⟩
      rw [walkEntry_noIgnoreFiltering hh hg, dispatchEntry]; simp
    · have hg' : app.has_option CliOptions.IgnoreGitIgnore = false := by
        simpa using hg
      by_cases hcov : is_covered s.ignored_paths (parent ++ [nm]) = true
      · refine Or.inr ⟨[], [], ?_, by simp⟩
        rw [walkEntry_covered hh hg' hcov]; simp
      · have hcov' : is_covered s.ignored_paths (parent ++ [nm]) = false := by
          simpa using hcov
        cases hroot : git_root sys (parent ++ [nm]) with
        | none =>
          refine Or.inr ⟨[Event.queryRoot (parent ++ [nm])], [], ?_, by simp⟩
          rw [walkEntry_root_none hh hg' hcov' hroot, dispatchEntry]
          simp [pushEvent, FsEntry.name]
        | some root =>
          by_cases hig : is_git_ignore sys root (parent ++ [nm]) = some true
          · refine Or.inr ⟨[Event.queryRoot (parent ++ [nm]),
              Event.queryIgnore (parent ++ [nm]), Event.record (parent ++ [nm])],
              [parent ++ [nm]], ?_, by simp⟩
            rw [walkEntry_ignored hh hg' hcov' hroot hig]
            simp [recordIgnored, pushEvent, FsEntry.name]
          · refine Or.inr ⟨[Event.queryRoot (parent ++ [nm]),
              Event.queryIgnore (parent ++ [nm])], [], ?_, by simp⟩
            rw [walkEntry_not_ignored hh hg' hcov' hroot hig, dispatchEntry]
            simp [pushEvent, FsEntry.name]

/-- Witness for the amended C3: a concrete special-file entry under the
default options. -/
theorem non_file_non_dir_entry_ignored_witness :
    walkEntry reFalse sysNone appDefault [] (FsEntry.other "sock" true) initState
        = (initState, some (WalkErr.panicNonUtf8 ["sock"])) ∨
    ∃ new newc,
      walkEntry reFalse sysNone appDefault [] (FsEntry.other "sock" true) initState
          = ({ ignored_paths := initState.ignored_paths ++ newc,
               output := initState.output,
               events := initState.events ++ new }, none) ∧
      ∀ ev ∈ new, ∀ q : Path, ev ≠ Event.scanFile q ∧ ev ≠ Event.enterDir q :=
  non_file_non_dir_entry_ignored reFalse sysNone appDefault []
    (FsEntry.other "sock" true) initState rfl rfl

/-! ## C9: oracle failure is fail-open -/

/-- C9.  With ignore filtering enabled and the entry past the hidden and
cache checks, an unusable oracle — the repository-root lookup fails or
finds no repository, or the is-ignored query does not answer
`Some(true)` — leads straight to the normal entry dispatch: the only state
change before the dispatch is the logging of the oracle queries, the
ignore cache and the output sink are untouched, and no abort is produced
by the ignore logic. -/
theorem oracle_failure_fail_open (re : String → Bool) (sys : Sys) (app : CliApp)
    (parent : Path) (e : FsEntry) (s : RunState)
    (hg : app.has_option CliOptions.IgnoreGitIgnore = false)
    (hh : hiddenCheck app e = HiddenRes.proceed)
    (hcov : is_covered s.ignored_paths (parent ++ [e.name]) = false)
    (hor : git_root sys (parent ++ [e.name]) = none ∨
      ∃ root, git_root sys (parent ++ [e.name]) = some root ∧
        is_git_ignore sys root (parent ++ [e.name]) ≠ some true) :
    ∃ qs, walkEntry re sys app parent e s
        = dispatchEntry re sys app (parent ++ [e.name]) e
            { s with events := s.events ++ qs } ∧
      (qs = [Event.queryRoot (parent ++ [e.name])] ∨
        qs = [Event.queryRoot (parent ++ [e.name]),
              Event.queryIgnore (parent ++ [e.name])]) := by
  rcases hor with hroot | ⟨root, hroot, hig⟩
  · exact ⟨[Event.queryRoot (parent ++ [e.name])],
      walkEntry_root_none hh hg hcov hroot, Or.inl rfl⟩
  · refine ⟨[Event.queryRoot (parent ++ [e.name]),
      Event.queryIgnore (parent ++ [e.name])], ?_, Or.inr rfl⟩
    have hst : pushEvent (pushEvent s (Event.queryRoot (parent ++ [e.name])))
        (Event.queryIgnore (parent ++ [e.name]))
        = { s with events := s.events ++ [Event.queryRoot (parent ++ [e.name]),
              Event.queryIgnore (parent ++ [e.name])] } := by
      simp [pushEvent]
    rw [walkEntry_not_ignored hh hg hcov hroot hig, hst]

/-- Witness for C9: a concrete entry on a system where every `git`
invocation fails to spawn. -/
theorem oracle_failure_fail_open_witness :
    ∃ qs, walkEntry reFalse sysNone appDefault [] (FsEntry.other "f" true) initState
        = dispatchEntry reFalse sysNone appDefault ["f"] (FsEntry.other "f" true)
            { initState with events := initState.events ++ qs } ∧
      (qs = [Event.queryRoot ["f"]] ∨
        qs = [Event.queryRoot ["f"], Event.queryIgnore ["f"]]) :=
  oracle_failure_fail_open reFalse sysNone appDefault [] (FsEntry.other "f" true)
    initState (by decide) (by decide) (by decide) (Or.inl rfl)


/-! ## C5: per-line reporting of the file scanner -/

theorem pairwise_fst_lt_enumFrom {α : Type _} (j : Nat) (ls : List α) :
    (List.enumFrom j ls).Pairwise (fun a b => a.1 < b.1) := by
  induction ls generalizing j with
  | nil => simp
  | cons x xs ih =>
    rw [List.enumFrom_cons]
    refine List.Pairwise.cons (fun p hp => ?_) (ih (j + 1))
    obtain ⟨i, a⟩ := p
    have := (List.mem_enumFrom hp).1
    omega

theorem pairwise_fst_lt_enum {α : Type _} (ls : List α) :
    ls.enum.Pairwise (fun a b => a.1 < b.1) :=
  pairwise_fst_lt_enumFrom 0 ls

theorem snd_mem_of_mem_enum {α : Type _} {x : Nat × α} {l : List α} (h : x ∈ l.enum) :
    x.2 ∈ l := by
  rw [List.mem_enum_iff_getElem?] at h
  exact List.getElem?_mem h

/-- C5.  For a successfully read file: the scan writes nothing at all iff
no line matches; otherwise the first written line is the file-path header;
a numbered line `n: L` is written iff `L` is the line at 1-based position
`n` of the file and the matcher matches it; every header line carries the
file's path and only the very first written line is a header; and the
reported line numbers are strictly increasing, so matches appear in
original file order. -/
theorem match_file_report (re : String → Bool) (path : Path) (ls : List String) :
    (match_file re path (some ls) = [] ↔ ∀ l ∈ ls, re l = false) ∧
    ((match_file re path (some ls)).head? = some (OutLine.header path) ∨
      match_file re path (some ls) = []) ∧
    (∀ n L, OutLine.matchLine n L ∈ match_file re path (some ls) ↔
      (1 ≤ n ∧ ls[n - 1]? = some L ∧ re L = true)) ∧
    (∀ q, OutLine.header q ∈ match_file re path (some ls) → q = path) ∧
    (∀ q, OutLine.header q ∉ (match_file re path (some ls)).tail) ∧
    ((match_file re path (some ls)).filterMap OutLine.lineNum).Pairwise (· < ·) := by
  have hms : ∀ il : Nat × String, il ∈ ls.enum.filter (fun il => re il.2) ↔
      (ls[il.1]? = some il.2 ∧ re il.2 = true) := by
    intro il
    rw [List.mem_filter, List.mem_enum_iff_getElem?]
  set ms := ls.enum.filter (fun il => re il.2) with hms_def
  have hout : match_file re path (some ls)
      = (if ms.isEmpty then [] else [OutLine.header path])
        ++ ms.map (fun il => OutLine.matchLine (il.1 + 1) il.2) := rfl
  have hnil : ms = [] ↔ ∀ l ∈ ls, re l = false := by
    rw [hms_def, List.filter_eq_nil_iff]
    constructor
    · intro h l hl
      obtain ⟨i, hi⟩ := List.getElem?_of_mem hl
      have hmem : (i, l) ∈ ls.enum := List.mk_mem_enum_iff_getElem?.mpr hi
      simpa using h _ hmem
    · intro h il hil
      simp [h _ (snd_mem_of_mem_enum hil)]
  have hne : ms ≠ [] → match_file re path (some ls)
      = OutLine.header path :: ms.map (fun il => OutLine.matchLine (il.1 + 1) il.2) := by
    intro hm
    have hfalse : ms.isEmpty = false := by simpa using hm
    rw [hout, hfalse]
    simp
  have hemp : ms = [] → match_file re path (some ls) = [] := by
    intro hm
    rw [hout, hm]
    simp
  refine ⟨?_, ?_, ?_, ?_, ?_, ?_⟩
  · constructor
    · intro h
      refine hnil.mp ?_
      by_contra hm
      rw [hne hm] at h
      exact List.cons_ne_nil _ _ h
    · intro h
      exact hemp (hnil.mpr h)
  · by_cases hempty : ms = []
    · exact Or.inr (hemp hempty)
    · rw [hne hempty]
      exact Or.inl rfl
  · intro n L
    constructor
    · intro h
      rw [hout] at h
      rcases List.mem_append.mp h with h | h
      · exfalso
        revert h
        split <;> simp
      · obtain ⟨il, hil, heq⟩ := List.mem_map.mp h
        obtain ⟨h1, h2⟩ : il.1 + 1 = n ∧ il.2 = L := by
          simpa [OutLine.matchLine.injEq] using heq
        obtain ⟨hg, hr⟩ := (hms il).mp hil
        subst h2
        refine ⟨by omega, ?_, hr⟩
        have : n - 1 = il.1 := by omega
        rw [this]
        exact hg
    · rintro ⟨h1, h2, h3⟩
      rw [hout]
      refine List.mem_append.mpr (Or.inr ?_)
      refine List.mem_map.mpr ⟨(n - 1, L), (hms _).mpr ⟨h2, h3⟩, ?_⟩
      have : n - 1 + 1 = n := by omega
      simp [this]
  · intro q h
    rw [hout] at h
    rcases List.mem_append.mp h with h | h
    · revert h
      split <;> simp
    · exfalso
      obtain ⟨il, _, heq⟩ := List.mem_map.mp h
      exact OutLine.noConfusion heq
  · intro q
    by_cases hempty : ms = []
    · simp [hemp hempty]
    · rw [hne hempty]
      simp
  · rw [hout, List.filterMap_append]
    have h1 : (if ms.isEmpty then [] else [OutLine.header path]).filterMap OutLine.lineNum
        = [] := by
      split <;> simp [OutLine.lineNum]
    have h2 : (ms.map fun il => OutLine.matchLine (il.1 + 1) il.2).filterMap OutLine.lineNum
        = ms.map (fun il => il.1 + 1) := by
      rw [List.filterMap_map]
      exact congrFun (List.filterMap_eq_map (fun il : Nat × String => il.1 + 1)) ms
    rw [h1, h2, List.nil_append, List.pairwise_map]
    exact (List.Pairwise.filter _ (pairwise_fst_lt_enum ls)).imp (fun h => by omega)


/-! ## Path and trace helper lemmas -/

theorem snoc_prefix_of {d : Path} {n : String} {q : Path} (h : (d ++ [n]) <+: q) :
    d <+: q ∧ d ≠ q := by
  refine ⟨(List.prefix_append d [n]).trans h, ?_⟩
  intro hdq
  have hl := h.length_le
  rw [← hdq] at hl
  simp at hl

theorem not_prefix_of_snoc_prefix {d : Path} {n : String} {Q : Path}
    (h : (d ++ [n]) <+: Q) : ¬ Q <+: d := by
  intro hq
  have h1 := h.length_le
  have h2 := hq.length_le
  simp at h1
  omega

theorem prefix_snoc_cases {Q d : Path} {n : String} (h : Q <+: d ++ [n]) :
    Q <+: d ∨ Q = d ++ [n] :=
  Or.symm (List.prefix_concat_iff.mp h)

theorem strictUnder_eq_false_of_not_prefix {P q : Path} (h : ¬ P <+: q) :
    strictUnder P q = false := by
  have hx : P.isPrefixOf q = false := by
    rw [Bool.eq_false_iff]
    intro hy
    exact h (List.isPrefixOf_iff_prefix.mp hy)
  simp [strictUnder, hx]

theorem noLeak_nil : NoLeak [] := by
  intro t₁ P t₂ h
  exact absurd h (by simp)

theorem noLeak_single (ev : Event) : NoLeak [ev] := by
  intro t₁ P t₂ h ev' hev'
  rcases t₁ with _ | ⟨x, t₁⟩
  · simp only [List.nil_append, List.cons.injEq] at h
    rw [← h.2] at hev'
    simp at hev'
  · simp only [List.cons_append, List.cons.injEq] at h
    exact absurd h.2 (by simp)

theorem noLeak_append {a b : List Event} (ha : NoLeak a) (hb : NoLeak b)
    (hcross : ∀ P, Event.record P ∈ a → ∀ ev ∈ b, strictUnder P (Event.path ev) = false) :
    NoLeak (a ++ b) := by
  intro t₁ P t₂ h ev hev
  rcases List.append_eq_append_iff.mp h with ⟨a2, ha2, hb2⟩ | ⟨c2, hc2, hd2⟩
  · exact hb a2 P t₂ hb2 ev hev
  · rcases c2 with _ | ⟨x, c2⟩
    · simp only [List.nil_append] at hd2
      exact hb [] P t₂ hd2.symm ev hev
    · rw [List.cons_append] at hd2
      injection hd2 with hx ht
      rcases List.mem_append.mp (ht ▸ hev) with hin | hin
      · refine ha t₁ P c2 ?_ ev hin
        rw [hc2, ← hx]
      · refine hcross P ?_ ev hin
        rw [hc2, ← hx]
        exact List.mem_append_right _ (List.mem_cons_self _ _)

theorem noLeak_of_no_record {tr : List Event} (h : ∀ P, Event.record P ∉ tr) :
    NoLeak tr := by
  intro t₁ P t₂ heq ev hev
  exact absurd (heq ▸ List.mem_append_right t₁ (List.mem_cons_self _ _)) (h P)

/-! ## Unfolding equations for dispatch and the loop -/

theorem dispatchEntry_file {re : String → Bool} {sys : Sys} {app : CliApp} {path : Path}
    {nm : String} {u readable : Bool} {lines : List String} {s : RunState} :
    dispatchEntry re sys app path (FsEntry.file nm u readable lines) s
      = (addOutput (pushEvent s (Event.scanFile path))
          (match_file re path (if readable then some lines else none)), none) := by
  rw [dispatchEntry]

theorem dispatchEntry_symlinkFile {re : String → Bool} {sys : Sys} {app : CliApp}
    {path : Path} {nm : String} {u readable : Bool} {lines : List String} {s : RunState} :
    dispatchEntry re sys app path (FsEntry.symlinkFile nm u readable lines) s
      = (addOutput (pushEvent s (Event.scanFile path))
          (match_file re path (if readable then some lines else none)), none) := by
  rw [dispatchEntry]

theorem dispatchEntry_symlinkDir_fail {re : String → Bool} {sys : Sys} {app : CliApp}
    {path : Path} {nm : String} {u : Bool} {s : RunState} :
    dispatchEntry re sys app path (FsEntry.symlinkDir nm u none) s
      = (pushEvent s (Event.enterDir path), some (WalkErr.ioFailure path)) := by
  rw [dispatchEntry]

theorem dispatchEntry_symlinkDir {re : String → Bool} {sys : Sys} {app : CliApp}
    {path : Path} {nm : String} {u : Bool} {es : List FsEntry} {s : RunState} :
    dispatchEntry re sys app path (FsEntry.symlinkDir nm u (some es)) s
      = walkList re sys app path es (pushEvent s (Event.enterDir path)) := by
  rw [dispatchEntry]

theorem dispatchEntry_dir_fail {re : String → Bool} {sys : Sys} {app : CliApp} {path : Path}
    {nm : String} {u : Bool} {s : RunState} :
    dispatchEntry re sys app path (FsEntry.dir nm u none) s
      = (pushEvent s (Event.enterDir path), some (WalkErr.ioFailure path)) := by
  rw [dispatchEntry]

theorem dispatchEntry_dir {re : String → Bool} {sys : Sys} {app : CliApp} {path : Path}
    {nm : String} {u : Bool} {es : List FsEntry} {s : RunState} :
    dispatchEntry re sys app path (FsEntry.dir nm u (some es)) s
      = walkList re sys app path es (pushEvent s (Event.enterDir path)) := by
  rw [dispatchEntry]

theorem dispatchEntry_other {re : String → Bool} {sys : Sys} {app : CliApp} {path : Path}
    {nm : String} {u : Bool} {s : RunState} :
    dispatchEntry re sys app path (FsEntry.other nm u) s = (s, none) := by
  rw [dispatchEntry]

theorem walkList_cons_abort {re : String → Bool} {sys : Sys} {app : CliApp} {d : Path}
    {e : FsEntry} {rest : List FsEntry} {s s1 : RunState} {err : WalkErr}
    (h : walkEntry re sys app d e s = (s1, some err)) :
    walkList re sys app d (e :: rest) s = (s1, some err) := by
  rw [walkList, h]

theorem walkList_cons_ok {re : String → Bool} {sys : Sys} {app : CliApp} {d : Path}
    {e : FsEntry} {rest : List FsEntry} {s s1 : RunState}
    (h : walkEntry re sys app d e s = (s1, none)) :
    walkList re sys app d (e :: rest) s = walkList re sys app d rest s1 := by
  rw [walkList, h]

/-- The trace-soundness of the walker, proved for all three mutually
recursive functions at once by induction on the size of the processed
entry or listing (with ignore filtering enabled). -/
theorem walkSpec (re : String → Bool) (sys : Sys) (app : CliApp)
    (hg : app.has_option CliOptions.IgnoreGitIgnore = false) :
    ∀ N : Nat,
      (∀ path e s, sizeOf e ≤ N → DispatchSpec re sys app path e s) ∧
      (∀ parent e s, sizeOf e ≤ N → EntrySpec re sys app parent e s) ∧
      (∀ d es s, sizeOf es ≤ N → ListSpec re sys app d es s) := by
  intro N
  induction N with
  | zero =>
    refine ⟨fun path e s hsz => absurd hsz ?_, fun parent e s hsz => absurd hsz ?_,
      fun d es s hsz => absurd hsz ?_⟩
    · cases e <;> simp
    · cases e <;> simp
    · cases es <;> simp
  | succ N ih =>
    obtain ⟨ihD, ihE, ihL⟩ := ih
    have hD : ∀ path e s, sizeOf e ≤ N + 1 → DispatchSpec re sys app path e s := by
      intro path e s hsz pre
      cases e with
      | file nm u readable lines =>
        refine ⟨[Event.scanFile path], [], ?_, ?_, ?_, ?_, ?_, ?_, ?_⟩
        · rw [dispatchEntry_file]
          simp [addOutput, pushEvent]
        · rw [dispatchEntry_file]
          simp [addOutput, pushEvent]
        · intro ev hev
          simp only [List.mem_singleton] at hev
          subst hev
          exact List.prefix_refl path
        · simp
        · intro P hP ev hev
          simp only [List.mem_singleton] at hev
          subst hev
          exact strictUnder_eq_false_of_not_prefix (pre P hP)
        · intro P hrec
          simp at hrec
        · exact noLeak_single _
      | symlinkFile nm u readable lines =>
        refine ⟨[Event.scanFile path], [], ?_, ?_, ?_, ?_, ?_, ?_, ?_⟩
        · rw [dispatchEntry_symlinkFile]
          simp [addOutput, pushEvent]
        · rw [dispatchEntry_symlinkFile]
          simp [addOutput, pushEvent]
        · intro ev hev
          simp only [List.mem_singleton] at hev
          subst hev
          exact List.prefix_refl path
        · simp
        · intro P hP ev hev
          simp only [List.mem_singleton] at hev
          subst hev
          exact strictUnder_eq_false_of_not_prefix (pre P hP)
        · intro P hrec
          simp at hrec
        · exact noLeak_single _
      | symlinkDir nm u listing =>
        cases listing with
        | none =>
          refine ⟨[Event.enterDir path], [], ?_, ?_, ?_, ?_, ?_, ?_, ?_⟩
          · rw [dispatchEntry_symlinkDir_fail]
            simp [pushEvent]
          · rw [dispatchEntry_symlinkDir_fail]
            simp [pushEvent]
          · intro ev hev
            simp only [List.mem_singleton] at hev
            subst hev
            exact List.prefix_refl path
          · simp
          · intro P hP ev hev
            simp only [List.mem_singleton] at hev
            subst hev
            exact strictUnder_eq_false_of_not_prefix (pre P hP)
          · intro P hrec
            simp at hrec
          · exact noLeak_single _
        | some es =>
          have hszes : sizeOf es ≤ N := by
            simp only [FsEntry.symlinkDir.sizeOf_spec, Option.some.sizeOf_spec] at hsz
            omega
          have pre1 : ∀ Q ∈ (pushEvent s (Event.enterDir path)).ignored_paths,
              ¬ Q <+: path := by
            simpa [pushEvent] using pre
          obtain ⟨new, newc, h1, h2, h3, h4, h5, h6, h7⟩ :=
            ihL path es (pushEvent s (Event.enterDir path)) hszes pre1
          refine ⟨Event.enterDir path :: new, newc, ?_, ?_, ?_, ?_, ?_, ?_, ?_⟩
          · rw [dispatchEntry_symlinkDir, h1]
            simp [pushEvent]
          · rw [dispatchEntry_symlinkDir, h2]
            simp [pushEvent]
          · intro ev hev
            rcases List.mem_cons.mp hev with hev | hev
            · subst hev
              exact List.prefix_refl path
            · exact (h3 ev hev).1
          · exact fun Q hQ => h4 Q hQ
          · intro P hP ev hev
            rcases List.mem_cons.mp hev with hev | hev
            · subst hev
              exact strictUnder_eq_false_of_not_prefix (pre P hP)
            · exact h5 P (by simpa [pushEvent] using hP) ev hev
          · intro P hrec
            rcases List.mem_cons.mp hrec with hrec | hrec
            · exact absurd hrec (by simp)
            · rw [dispatchEntry_symlinkDir]
              exact h6 P hrec
          · have : Event.enterDir path :: new = [Event.enterDir path] ++ new := rfl
            rw [this]
            refine noLeak_append (noLeak_single _) h7 ?_
            intro P hPr
            simp at hPr
      | other nm u =>
        refine ⟨[], [], ?_, ?_, by simp, by simp, by simp, ?_, noLeak_nil⟩
        · rw [dispatchEntry_other]
          simp
        · rw [dispatchEntry_other]
          simp
        · intro P hrec
          simp at hrec
      | dir nm u listing =>
        cases listing with
        | none =>
          refine ⟨[Event.enterDir path], [], ?_, ?_, ?_, ?_, ?_, ?_, ?_⟩
          · rw [dispatchEntry_dir_fail]
            simp [pushEvent]
          · rw [dispatchEntry_dir_fail]
            simp [pushEvent]
          · intro ev hev
            simp only [List.mem_singleton] at hev
            subst hev
            exact List.prefix_refl path
          · simp
          · intro P hP ev hev
            simp only [List.mem_singleton] at hev
            subst hev
            exact strictUnder_eq_false_of_not_prefix (pre P hP)
          · intro P hrec
            simp at hrec
          · exact noLeak_single _
        | some es =>
          have hszes : sizeOf es ≤ N := by
            simp only [FsEntry.dir.sizeOf_spec, Option.some.sizeOf_spec] at hsz
            omega
          have pre1 : ∀ Q ∈ (pushEvent s (Event.enterDir path)).ignored_paths,
              ¬ Q <+: path := by
            simpa [pushEvent] using pre
          obtain ⟨new, newc, h1, h2, h3, h4, h5, h6, h7⟩ :=
            ihL path es (pushEvent s (Event.enterDir path)) hszes pre1
          refine ⟨Event.enterDir path :: new, newc, ?_, ?_, ?_, ?_, ?_, ?_, ?_⟩
          · rw [dispatchEntry_dir, h1]
            simp [pushEvent]
          · rw [dispatchEntry_dir, h2]
            simp [pushEvent]
          · intro ev hev
            rcases List.mem_cons.mp hev with hev | hev
            · subst hev
              exact List.prefix_refl path
            · exact (h3 ev hev).1
          · exact fun Q hQ => h4 Q hQ
          · intro P hP ev hev
            rcases List.mem_cons.mp hev with hev | hev
            · subst hev
              exact strictUnder_eq_false_of_not_prefix (pre P hP)
            · exact h5 P (by simpa [pushEvent] using hP) ev hev
          · intro P hrec
            rcases List.mem_cons.mp hrec with hrec | hrec
            · exact absurd hrec (by simp)
            · rw [dispatchEntry_dir]
              exact h6 P hrec
          · have : Event.enterDir path :: new = [Event.enterDir path] ++ new := rfl
            rw [this]
            refine noLeak_append (noLeak_single _) h7 ?_
            intro P hPr
            simp at hPr
    have hE : ∀ parent e s, sizeOf e ≤ N + 1 → EntrySpec re sys app parent e s := by
      intro parent e s hsz pre
      cases hh : hiddenCheck app e with
      | skip =>
        refine ⟨[], [], ?_, ?_, by simp, by simp, by simp, ?_, noLeak_nil⟩
        · rw [walkEntry_skip hh]
          simp
        · rw [walkEntry_skip hh]
          simp
        · intro P hrec
          simp at hrec
      | panicName =>
        refine ⟨[], [], ?_, ?_, by simp, by simp, by simp, ?_, noLeak_nil⟩
        · rw [walkEntry_panic hh]
          simp
        · rw [walkEntry_panic hh]
          simp
        · intro P hrec
          simp at hrec
      | proceed =>
        by_cases hcov : is_covered s.ignored_paths (parent ++ [e.name]) = true
        · refine ⟨[], [], ?_, ?_, by simp, by simp, by simp, ?_, noLeak_nil⟩
          · rw [walkEntry_covered hh hg hcov]
            simp
          · rw [walkEntry_covered hh hg hcov]
            simp
          · intro P hrec
            simp at hrec
        · have hcov' : is_covered s.ignored_paths (parent ++ [e.name]) = false := by
            simpa using hcov
          have hnc : ∀ Q ∈ s.ignored_paths, ¬ (parent ++ [e.name]) <+: Q := by
            intro Q hQ hp
            refine hcov ?_
            rw [is_covered, List.any_eq_true]
            exact ⟨Q, hQ, List.isPrefixOf_iff_prefix.mpr hp⟩
          have prePath : ∀ Q ∈ s.ignored_paths, ¬ Q <+: parent ++ [e.name] := by
            intro Q hQ hp
            rcases prefix_snoc_cases hp with hc | hc
            · exact pre Q hQ hc
            · refine hnc Q hQ ?_
              rw [hc]
          cases hroot : git_root sys (parent ++ [e.name]) with
          | none =>
            obtain ⟨new, newc, h1, h2, h3, h4, h5, h6, h7⟩ :=
              hD (parent ++ [e.name]) e
                (pushEvent s (Event.queryRoot (parent ++ [e.name]))) hsz
                (by simpa [pushEvent] using prePath)
            refine ⟨Event.queryRoot (parent ++ [e.name]) :: new, newc,
              ?_, ?_, ?_, ?_, ?_, ?_, ?_⟩
            · rw [walkEntry_root_none hh hg hcov' hroot, h1]
              simp [pushEvent]
            · rw [walkEntry_root_none hh hg hcov' hroot, h2]
              simp [pushEvent]
            · intro ev hev
              rcases List.mem_cons.mp hev with hev | hev
              · subst hev
                exact List.prefix_refl _
              · exact h3 ev hev
            · exact fun Q hQ => (h4 Q hQ).1
            · intro P hP ev hev
              rcases List.mem_cons.mp hev with hev | hev
              · subst hev
                exact strictUnder_eq_false_of_not_prefix (prePath P hP)
              · exact h5 P (by simpa [pushEvent] using hP) ev hev
            · intro P hrec
              rcases List.mem_cons.mp hrec with hrec | hrec
              · exact absurd hrec (by simp)
              · rw [walkEntry_root_none hh hg hcov' hroot]
                exact h6 P hrec
            · have heq : Event.queryRoot (parent ++ [e.name]) :: new
                  = [Event.queryRoot (parent ++ [e.name])] ++ new := rfl
              rw [heq]
              refine noLeak_append (noLeak_single _) h7 ?_
              intro P hPr
              simp at hPr
          | some root =>
            by_cases hig : is_git_ignore sys root (parent ++ [e.name]) = some true
            · refine ⟨[Event.queryRoot (parent ++ [e.name]),
                Event.queryIgnore (parent ++ [e.name]),
                Event.record (parent ++ [e.name])], [parent ++ [e.name]],
                ?_, ?_, ?_, ?_, ?_, ?_, ?_⟩
              · rw [walkEntry_ignored hh hg hcov' hroot hig]
                simp [recordIgnored, pushEvent]
              · rw [walkEntry_ignored hh hg hcov' hroot hig]
                simp [recordIgnored, pushEvent]
              · intro ev hev
                simp only [List.mem_cons, List.not_mem_nil, or_false] at hev
                rcases hev with hev | hev | hev <;> subst hev <;>
                  exact List.prefix_refl _
              · intro Q hQ
                simp only [List.mem_singleton] at hQ
                subst hQ
                exact List.prefix_refl _
              · intro P hP ev hev
                simp only [List.mem_cons, List.not_mem_nil, or_false] at hev
                rcases hev with hev | hev | hev <;> subst hev <;>
                  exact strictUnder_eq_false_of_not_prefix (prePath P hP)
              · intro P hrec
                rw [walkEntry_ignored hh hg hcov' hroot hig]
                simp only [List.mem_cons, List.not_mem_nil, or_false] at hrec
                rcases hrec with hrec | hrec | hrec
                · exact absurd hrec (by simp)
                · exact absurd hrec (by simp)
                · have hP : P = parent ++ [e.name] := by
                    simpa using hrec
                  subst hP
                  simp [recordIgnored, pushEvent]
              · have heq : [Event.queryRoot (parent ++ [e.name]),
                    Event.queryIgnore (parent ++ [e.name]),
                    Event.record (parent ++ [e.name])]
                    = [Event.queryRoot (parent ++ [e.name]),
                        Event.queryIgnore (parent ++ [e.name])]
                      ++ [Event.record (parent ++ [e.name])] := rfl
                rw [heq]
                refine noLeak_append (noLeak_of_no_record ?_) (noLeak_single _) ?_
                · intro P hP
                  simp at hP
                · intro P hPr
                  simp at hPr
            · obtain ⟨new, newc, h1, h2, h3, h4, h5, h6, h7⟩ :=
                hD (parent ++ [e.name]) e
                  (pushEvent (pushEvent s (Event.queryRoot (parent ++ [e.name])))
                    (Event.queryIgnore (parent ++ [e.name]))) hsz
                  (by simpa [pushEvent] using prePath)
              refine ⟨Event.queryRoot (parent ++ [e.name])
                  :: Event.queryIgnore (parent ++ [e.name]) :: new, newc,
                ?_, ?_, ?_, ?_, ?_, ?_, ?_⟩
              · rw [walkEntry_not_ignored hh hg hcov' hroot hig, h1]
                simp [pushEvent]
              · rw [walkEntry_not_ignored hh hg hcov' hroot hig, h2]
                simp [pushEvent]
              · intro ev hev
                simp only [List.mem_cons] at hev
                rcases hev with hev | hev | hev
                · subst hev
                  exact List.prefix_refl _
                · subst hev
                  exact List.prefix_refl _
                · exact h3 ev hev
              · exact fun Q hQ => (h4 Q hQ).1
              · intro P hP ev hev
                simp only [List.mem_cons] at hev
                rcases hev with hev | hev | hev
                · subst hev
                  exact strictUnder_eq_false_of_not_prefix (prePath P hP)
                · subst hev
                  exact strictUnder_eq_false_of_not_prefix (prePath P hP)
                · exact h5 P (by simpa [pushEvent] using hP) ev hev
              · intro P hrec
                simp only [List.mem_cons] at hrec
                rcases hrec with hrec | hrec | hrec
                · exact absurd hrec (by simp)
                · exact absurd hrec (by simp)
                · rw [walkEntry_not_ignored hh hg hcov' hroot hig]
                  exact h6 P hrec
              · have heq : Event.queryRoot (parent ++ [e.name])
                    :: Event.queryIgnore (parent ++ [e.name]) :: new
                    = [Event.queryRoot (parent ++ [e.name]),
                        Event.queryIgnore (parent ++ [e.name])] ++ new := rfl
                rw [heq]
                refine noLeak_append (noLeak_of_no_record ?_) h7 ?_
                · intro P hP
                  simp at hP
                · intro P hPr
                  simp at hPr
    have hL : ∀ d es s, sizeOf es ≤ N + 1 → ListSpec re sys app d es s := by
      intro d es s hsz pre
      cases es with
      | nil =>
        refine ⟨[], [], ?_, ?_, by simp, by simp, by simp, ?_, noLeak_nil⟩
        · rw [walkList]
          simp
        · rw [walkList]
          simp
        · intro P hrec
          simp at hrec
      | cons e rest =>
        have hsze : sizeOf e ≤ N := by
          simp only [List.cons.sizeOf_spec] at hsz
          omega
        have hszr : sizeOf rest ≤ N := by
          simp only [List.cons.sizeOf_spec] at hsz
          omega
        obtain ⟨newE, newcE, e1, e2, e3, e4, e5, e6, e7⟩ := ihE d e s hsze pre
        rcases hw : walkEntry re sys app d e s with ⟨s1, r⟩
        rw [hw] at e1 e2 e6
        cases r with
        | some err =>
          rw [walkList_cons_abort hw]
          refine ⟨newE, newcE, e1, e2, ?_, ?_, e5, e6, e7⟩
          · intro ev hev
            exact snoc_prefix_of (e3 ev hev)
          · intro Q hQ
            exact snoc_prefix_of (e4 Q hQ)
        | none =>
          have e1' : s1.events = s.events ++ newE := e1
          have e2' : s1.ignored_paths = s.ignored_paths ++ newcE := e2
          have e6' : ∀ P, Event.record P ∈ newE → P ∈ s1.ignored_paths := e6
          have pre1 : ∀ Q ∈ s1.ignored_paths, ¬ Q <+: d := by
            intro Q hQ
            rw [e2'] at hQ
            rcases List.mem_append.mp hQ with hold | hnew
            · exact pre Q hold
            · exact not_prefix_of_snoc_prefix (e4 Q hnew)
          obtain ⟨newR, newcR, r1, r2, r3, r4, r5, r6, r7⟩ := ihL d rest s1 hszr pre1
          rw [walkList_cons_ok hw]
          refine ⟨newE ++ newR, newcE ++ newcR, ?_, ?_, ?_, ?_, ?_, ?_, ?_⟩
          · rw [r1, e1', List.append_assoc]
          · rw [r2, e2', List.append_assoc]
          · intro ev hev
            rcases List.mem_append.mp hev with hev | hev
            · exact snoc_prefix_of (e3 ev hev)
            · exact r3 ev hev
          · intro Q hQ
            rcases List.mem_append.mp hQ with hQ | hQ
            · exact snoc_prefix_of (e4 Q hQ)
            · exact r4 Q hQ
          · intro P hP ev hev
            rcases List.mem_append.mp hev with hev | hev
            · exact e5 P hP ev hev
            · refine r5 P ?_ ev hev
              rw [e2']
              exact List.mem_append_left _ hP
          · intro P hrec
            rcases List.mem_append.mp hrec with hrec | hrec
            · rw [r2]
              exact List.mem_append_left _ (e6' P hrec)
            · exact r6 P hrec
          · exact noLeak_append e7 r7 (fun P hPr ev hev => r5 P (e6' P hPr) ev hev)
    exact ⟨hD, hE, hL⟩

/-! ## C2: monotonicity of the ignore cache -/

/-- C2.  In any run of `match_directory` from a fresh state with ignore
filtering enabled, once the trace records a directory path `P` as
ignored, no later event — in particular neither a repository-root lookup
(`queryRoot`) nor an is-ignored query (`queryIgnore`) — concerns a path
nested strictly under `P`: the walker never recurses into an
ignored-and-recorded directory, so its descendants are skipped without
any further oracle query. -/
theorem ignored_dir_descendants_not_requeried (re : String → Bool) (sys : Sys)
    (app : CliApp) (rootPath : Path) (listing : Option (List FsEntry))
    (s' : RunState) (r : Option WalkErr) (t₁ : List Event) (P : Path)
    (t₂ : List Event) (ev : Event)
    (hg : app.has_option CliOptions.IgnoreGitIgnore = false)
    (hrun : match_directory re sys app rootPath listing initState = (s', r))
    (hsplit : s'.events = t₁ ++ Event.record P :: t₂)
    (hev : ev ∈ t₂) :
    strictUnder P (Event.path ev) = false := by
  cases listing with
  | none =>
    rw [match_directory] at hrun
    injection hrun with h1 h2
    rw [← h1] at hsplit
    simp [initState] at hsplit
  | some es =>
    rw [match_directory] at hrun
    obtain ⟨new, newc, h1, h2, h3, h4, h5, h6, h7⟩ :=
      (walkSpec re sys app hg (sizeOf es)).2.2 rootPath es initState le_rfl
        (by simp [initState])
    have hfst : (walkList re sys app rootPath es initState).1 = s' := by rw [hrun]
    have hnew : s'.events = new := by
      rw [← hfst, h1]
      simp [initState]
    exact h7 t₁ P t₂ (hnew.symm.trans hsplit) ev hev

/-- Witness for C2: a concrete run in which `r/ig` is recorded as ignored
and a later entry `r/a` is still processed; the later oracle query is not
under the recorded path. -/
theorem ignored_dir_descendants_not_requeried_witness :
    strictUnder ["r", "ig"] (Event.path (Event.queryRoot ["r", "a"])) = false :=
  ignored_dir_descendants_not_requeried reFalse sysIg appDefault ["r"] (some esIg)
    ⟨[["r", "ig"]], [],
      [Event.queryRoot ["r", "ig"], Event.queryIgnore ["r", "ig"],
       Event.record ["r", "ig"], Event.queryRoot ["r", "a"]]⟩ none
    [Event.queryRoot ["r", "ig"], Event.queryIgnore ["r", "ig"]] ["r", "ig"]
    [Event.queryRoot ["r", "a"]] (Event.queryRoot ["r", "a"])
    (by decide)
    (by simp [match_directory, esIg, walkList, walkEntry, dispatchEntry, hiddenCheck,
      appDefault, sysIg, reFalse, CliApp.has_option, FsEntry.utf8, FsEntry.name,
      strStartsWith, is_covered, git_root, is_git_ignore, pushEvent, recordIgnored,
      initState])
    rfl
    (by simp)

end Yagrep
